import Mathlib

/-!
Shallow embedding of the peekmd live folder-sync engine
(`src/config.js`, `src/watcher.js`, `src/server.js`, `bin/peekmd.js`)
and proofs of the specification claims about it.

JavaScript strings are modelled by Lean `String`; the handful of string
primitives the code uses (`toLowerCase`, `trim`, `includes`, `endsWith`,
`split`/`join`) are implemented below on `List Char` so that concrete
instances evaluate inside the kernel.
-/

namespace PeekMD

/-! ## JS string primitives -/

/-- `s.toLowerCase()` (ASCII case folding, which is all the code relies on). -/
def lowerS (s : String) : String := ⟨s.data.map Char.toLower⟩

/-- Is `pre` a prefix of `l`? (Bool-valued, structural.) -/
def startsL : List Char → List Char → Bool
  | [], _ => true
  | _ :: _, [] => false
  | p :: ps, c :: cs => p == c && startsL ps cs

/-- Does `hay` contain `needle` as a contiguous substring? (JS `includes`). -/
def containsL (hay needle : List Char) : Bool :=
  match hay with
  | [] => needle.isEmpty
  | _ :: rest => startsL needle hay || containsL rest needle

/-- `s.includes(sub)`. -/
def containsS (s sub : String) : Bool := containsL s.data sub.data

/-- `s.startsWith(pre)`. -/
def startsWithS (s pre : String) : Bool := startsL pre.data s.data

/-- `s.endsWith(suffix)`. -/
def endsWithS (s suffix : String) : Bool :=
  startsL suffix.data.reverse s.data.reverse

/-- `s.trim()`: strip leading and trailing whitespace. -/
def trimS (s : String) : String :=
  ⟨((s.data.dropWhile Char.isWhitespace).reverse.dropWhile Char.isWhitespace).reverse⟩

/-- Split a character list at every occurrence of `sep` (JS `s.split(sep)`
for a single-character separator). -/
def splitSep (sep : Char) : List Char → List (List Char)
  | [] => [[]]
  | c :: rest =>
    if c == sep then [] :: splitSep sep rest
    else
      match splitSep sep rest with
      | [] => [[c]]
      | g :: gs => (c :: g) :: gs

/-- Join character-list groups with the separator `sep`
(JS `parts.join(sep)` for a one-character separator). -/
def joinSep (sep : Char) : List (List Char) → List Char
  | [] => []
  | [g] => g
  | g :: gs => g ++ sep :: joinSep sep gs

/-- `str.split(sepA).join(sepB)` (used to normalise path separators). -/
def splitJoinS (sepA sepB : Char) (s : String) : String :=
  ⟨joinSep sepB (splitSep sepA s.data)⟩

example : lowerS "AbC.Md" = "abc.md" := by decide
example : containsS "hello world" "o w" = true := by decide
example : containsS "hello" "z" = false := by decide
example : trimS "  x y  " = "x y" := by decide
example : endsWithS "README.MD" ".MD" = true := by decide
example : splitJoinS '\\' '/' "a\\b\\c" = "a/b/c" := by decide

/-! ## `src/config.js` — ignore patterns

The persisted configuration object.  `read()` yields `{ folders: [...] }`
when the file is absent, i.e. no `ignore` key — modelled by `Option`.
The compiled-matcher cache `_globCache` is a map from pattern string to
`picomatch(pattern)`; since the stored value is a pure function of the
key, the cache state is modelled by its key set (a list of pattern
strings), and the glob matcher itself (the external `picomatch` library)
is a parameter `m : String → String → Bool`. -/

structure ConfigData where
  folders : List String
  ignore : Option (List String)
deriving Repr, DecidableEq

/-- The `DEFAULT_IGNORE` array of `src/config.js`, verbatim. -/
def DEFAULT_IGNORE : List String :=
  [ "**/node_modules/**",
    "**/dist/**",
    "**/build/**",
    "**/.next/**",
    "**/.git/**",
    "**/__pycache__/**",
    "**/*.pyc",
    "**/.venv/**",
    "**/venv/**",
    "**/env/**",
    "**/.pytest_cache/**",
    "**/.mypy_cache/**",
    "**/target/**",
    "**/*.class",
    "**/*.jar",
    "**/target/**",
    "**/vendor/**",
    "**/pkg/**",
    "**/*.o",
    "**/*.so",
    "**/*.dll",
    "**/*.exe",
    "**/.idea/**",
    "**/.vscode/**",
    "**/.cache/**",
    "**/.gradle/**",
    "**/__pycache__/**",
    "**/.tox/**" ]

/-- `getIgnorePatterns()`: `[...DEFAULT_IGNORE, ...user]` where
`user = data.ignore || []`. -/
def getIgnorePatterns (d : ConfigData) : List String :=
  DEFAULT_IGNORE ++ d.ignore.getD []

/-- `ensureDefaults()`: if the config has no `ignore` key, write the
default list into it.  Note: the source performs no cache invalidation
here.  Second component of the state is the compiled-matcher cache. -/
def ensureDefaults (d : ConfigData) (cache : List String) :
    ConfigData × List String :=
  match d.ignore with
  | none => ({ d with ignore := some DEFAULT_IGNORE }, cache)
  | some _ => (d, cache)

structure PatternResult where
  changed : Bool
  pattern : String
deriving Repr, DecidableEq

/-- `addIgnorePattern(pattern)`.  Returns the JS result (`added` flag),
the new config, and the new cache (cleared via `clearGlobCache()` only
when the list actually changed). -/
def addIgnorePattern (p : String) (d : ConfigData) (cache : List String) :
    PatternResult × ConfigData × List String :=
  let user := d.ignore.getD []
  if user.contains p then (⟨false, p⟩, { d with ignore := some user }, cache)
  else (⟨true, p⟩, { d with ignore := some (user ++ [p]) }, [])

/-- `removeIgnorePattern(pattern)`. -/
def removeIgnorePattern (p : String) (d : ConfigData) (cache : List String) :
    PatternResult × ConfigData × List String :=
  match d.ignore with
  | none => (⟨false, p⟩, d, cache)
  | some user =>
    if user.contains p then
      (⟨true, p⟩, { d with ignore := some (user.erase p) }, [])
    else (⟨false, p⟩, d, cache)

/-- `getGlobMatcher(pattern)`: memoised `picomatch(pattern, {dot:true})`.
The value stored under a key is always the compilation of that key, so
the returned matcher is `m pattern` whether or not it was cached; the
cache gains the key when absent. -/
def getGlobMatcher (m : String → String → Bool) (p : String)
    (cache : List String) : (String → Bool) × List String :=
  (m p, if cache.contains p then cache else cache ++ [p])

/-- `isIgnored(relPath)` with the cache threaded through: iterate the
active patterns in order and return `true` on the first match. -/
def isIgnoredSt (m : String → String → Bool) (patterns : List String)
    (relPath : String) (cache : List String) : Bool × List String :=
  match patterns with
  | [] => (false, cache)
  | p :: ps =>
    let r := getGlobMatcher m p cache
    if r.1 relPath then (true, r.2) else isIgnoredSt m ps relPath r.2

/-- Pure view of `isIgnored`: does some active pattern match? -/
def isIgnored (m : String → String → Bool) (patterns : List String)
    (relPath : String) : Bool :=
  patterns.any (fun p => m p relPath)

/-- The cache never influences the boolean `isIgnored` returns. -/
theorem isIgnoredSt_fst (m : String → String → Bool)
    (patterns : List String) (relPath : String) (cache : List String) :
    (isIgnoredSt m patterns relPath cache).1 = isIgnored m patterns relPath := by
  induction patterns generalizing cache with
  | nil => rfl
  | cons p ps ih =>
    simp only [isIgnoredSt, isIgnored, getGlobMatcher, List.any_cons]
    by_cases h : m p relPath
    · simp [h]
    · simp [h, ih, isIgnored]

/-! ## `src/server.js` — watcher registry and reconciler

`const watchers = new Map()` maps a folder path to its chokidar watcher
handle.  Handles are opaque here; they are identified by the order of
creation (a counter), which suffices to express "the first handle is
unchanged".  A JS `Map` never holds two entries with the same key, so a
registry state always has nodup keys; theorems that need it take that as
a hypothesis.  `startWatcher`/`stopWatcher`/`syncWatchers` additionally
return the list of folders for which a watcher was actually created
resp. closed, so that "no mutation happened" is expressible. -/

structure Registry where
  ws : List (String × Nat)
  next : Nat
deriving Repr, DecidableEq

/-- The key set of the registry (`watchers.keys()`). -/
def Registry.keys (r : Registry) : List String := r.ws.map Prod.fst

/-- `startWatcher(folder, wss)`: create a watcher only when none exists.
Also reports whether one was created. -/
def startWatcher (folder : String) (r : Registry) : Registry × List String :=
  if r.keys.contains folder then (r, [])
  else ({ ws := r.ws ++ [(folder, r.next)], next := r.next + 1 }, [folder])

/-- `stopWatcher(folder)`: close and remove the handle if present.
Also reports whether one was closed. -/
def stopWatcher (folder : String) (r : Registry) : Registry × List String :=
  if r.keys.contains folder then
    ({ ws := r.ws.filter (fun p => p.1 ≠ folder), next := r.next }, [folder])
  else (r, [])

/-- JS `Set`-building step: `if (!acc.includes(d)) acc.push(d)`. -/
def pushUnique (acc : List String) (d : String) : List String :=
  if acc.contains d then acc else acc ++ [d]

/-- `allFolders` of `syncWatchers`: `[...configFolders]` extended by the
extra dirs not already present. -/
def allFoldersOf (cfg extra : List String) : List String :=
  extra.foldl pushUnique cfg

/-- `new Set(allFolders)` as an insertion-ordered duplicate-free list. -/
def targetList (cfg extra : List String) : List String :=
  (allFoldersOf cfg extra).foldl pushUnique []

/-- Outcome of one `syncWatchers(wss, extraDirs)` run: the registry, the
compiled-matcher cache (cleared at the end), and the folders whose
watchers were stopped resp. started during the run. -/
structure SyncResult where
  reg : Registry
  cache : List String
  stopped : List String
  started : List String
deriving Repr, DecidableEq

/-- Body of the first loop of `syncWatchers`:
`if (!targetFolders.has(folder)) stopWatcher(folder)`. -/
def stopStep (tgt : List String) (acc : Registry × List String)
    (f : String) : Registry × List String :=
  if tgt.contains f then acc
  else
    let s := stopWatcher f acc.1
    (s.1, acc.2 ++ s.2)

/-- The first loop of `syncWatchers`: stop every current folder that is
not in the target set.  `cur` is the snapshot `new Set(watchers.keys())`. -/
def stopPhase (tgt : List String) (cur : List String) (r : Registry) :
    Registry × List String :=
  cur.foldl (stopStep tgt) (r, [])

/-- Body of the second loop of `syncWatchers`:
`if (!currentFolders.has(folder)) startWatcher(folder, wss)`. -/
def startStep (cur : List String) (acc : Registry × List String)
    (f : String) : Registry × List String :=
  if cur.contains f then acc
  else
    let s := startWatcher f acc.1
    (s.1, acc.2 ++ s.2)

/-- The second loop of `syncWatchers`: start every target folder not in
the snapshot `cur`. -/
def startPhase (tgt : List String) (cur : List String) (r : Registry) :
    Registry × List String :=
  tgt.foldl (startStep cur) (r, [])

/-- `syncWatchers(wss, extraDirs)` over registry and glob cache. -/
def syncWatchers (cfg extra : List String) (r : Registry)
    (_cache : List String) : SyncResult :=
  let cur := r.keys
  let tgt := targetList cfg extra
  let stops := stopPhase tgt cur r
  let starts := startPhase tgt cur stops.1
  { reg := starts.1, cache := [], stopped := stops.2, started := starts.2 }

/-! ### Registry lemmas -/

theorem contains_iff {α : Type} [BEq α] [LawfulBEq α] {l : List α} {a : α} :
    l.contains a = true ↔ a ∈ l := by
  simp [List.contains, List.elem_iff]

theorem startWatcher_keys (f : String) (r : Registry) :
    (startWatcher f r).1.keys =
      if r.keys.contains f then r.keys else r.keys ++ [f] := by
  unfold startWatcher
  by_cases h : r.keys.contains f
  · rw [if_pos h, if_pos h]
  · rw [if_neg h, if_neg h]
    simp [Registry.keys]

theorem mem_startWatcher_keys (f g : String) (r : Registry) :
    g ∈ (startWatcher f r).1.keys ↔ g ∈ r.keys ∨ g = f := by
  rw [startWatcher_keys]
  by_cases h : r.keys.contains f
  · rw [if_pos h]
    constructor
    · exact Or.inl
    · rintro (hg | rfl)
      · exact hg
      · exact contains_iff.1 h
  · rw [if_neg h]
    simp

theorem startWatcher_nodup (f : String) (r : Registry)
    (h : r.keys.Nodup) : (startWatcher f r).1.keys.Nodup := by
  rw [startWatcher_keys]
  by_cases hc : r.keys.contains f
  · rwa [if_pos hc]
  · rw [if_neg hc]
    refine List.Nodup.append h (List.nodup_singleton f) ?_
    intro a ha hb
    simp only [List.mem_singleton] at hb
    subst hb
    exact hc (contains_iff.2 ha)

theorem startWatcher_of_contains {f : String} {r : Registry}
    (h : r.keys.contains f = true) : startWatcher f r = (r, []) := by
  unfold startWatcher
  rw [if_pos h]

/-- A second `startWatcher` for the same folder is a no-op. -/
theorem startWatcher_idem (f : String) (r : Registry) :
    startWatcher f (startWatcher f r).1 = ((startWatcher f r).1, []) :=
  startWatcher_of_contains
    (contains_iff.2 ((mem_startWatcher_keys f f r).2 (Or.inr rfl)))

theorem stopWatcher_keys (f : String) (r : Registry) :
    (stopWatcher f r).1.keys = r.keys.filter (fun k => k ≠ f) := by
  have hmap : ∀ ws : List (String × Nat),
      (ws.filter (fun p => p.1 ≠ f)).map Prod.fst =
        (ws.map Prod.fst).filter (fun k => k ≠ f) := by
    intro ws
    induction ws with
    | nil => rfl
    | cons p ps ih =>
      simp only [ne_eq, decide_not] at ih ⊢
      by_cases h : p.1 = f <;> simp [List.filter_cons, h, ih]
  unfold stopWatcher
  by_cases h : r.keys.contains f
  · rw [if_pos h]
    exact hmap r.ws
  · rw [if_neg h]
    symm
    apply List.filter_eq_self.mpr
    intro k hk
    simp only [ne_eq, decide_not, Bool.not_eq_true', decide_eq_false_iff_not]
    rintro rfl
    exact h (contains_iff.2 hk)

theorem stopWatcher_next (f : String) (r : Registry) :
    (stopWatcher f r).1.next = r.next := by
  unfold stopWatcher
  by_cases h : r.keys.contains f
  · rw [if_pos h]
  · rw [if_neg h]

theorem stopFold_keys (tgt : List String) (cur : List String) :
    ∀ acc : Registry × List String,
    (cur.foldl (stopStep tgt) acc).1.keys =
      acc.1.keys.filter (fun k => tgt.contains k || !(cur.contains k)) := by
  induction cur with
  | nil =>
    intro acc
    symm
    apply List.filter_eq_self.mpr
    intro k _
    simp [List.contains]
  | cons f cs ih =>
    intro acc
    rw [List.foldl_cons, ih]
    by_cases ht : tgt.contains f
    · rw [show stopStep tgt acc f = acc from by unfold stopStep; rw [if_pos ht]]
      apply List.filter_congr
      intro k _
      by_cases hk : k = f
      · subst hk
        rw [ht, Bool.true_or, Bool.true_or]
      · rw [List.contains_cons, show (k == f) = false from beq_eq_false_iff_ne.2 hk,
          Bool.false_or]
    · rw [show stopStep tgt acc f =
            ((stopWatcher f acc.1).1, acc.2 ++ (stopWatcher f acc.1).2) from by
          unfold stopStep; rw [if_neg ht]]
      rw [stopWatcher_keys, List.filter_filter]
      apply List.filter_congr
      intro k _
      by_cases hk : k = f
      · subst hk
        rw [show tgt.contains k = false from Bool.eq_false_iff.2 ht,
          List.contains_cons, show (k == k) = true from beq_self_eq_true k,
          Bool.true_or, Bool.not_true, Bool.false_or, Bool.false_or,
          show (decide ¬k = k) = false from by simp, Bool.and_false]
      · rw [List.contains_cons, show (k == f) = false from beq_eq_false_iff_ne.2 hk,
          Bool.false_or, show (decide ¬k = f) = true from by simp [hk], Bool.and_true]

theorem stopPhase_keys_self (tgt : List String) (r : Registry) :
    (stopPhase tgt r.keys r).1.keys = r.keys.filter (fun k => tgt.contains k) := by
  unfold stopPhase
  rw [stopFold_keys]
  apply List.filter_congr
  intro k hk
  rw [contains_iff.2 hk, Bool.not_true, Bool.or_false]

theorem startFold_keys_mem (cur : List String) (tgt : List String) :
    ∀ (acc : Registry × List String) (g : String),
    g ∈ (tgt.foldl (startStep cur) acc).1.keys ↔
      g ∈ acc.1.keys ∨ (g ∈ tgt ∧ ¬ cur.contains g = true) := by
  induction tgt with
  | nil => simp
  | cons t ts ih =>
    intro acc g
    rw [List.foldl_cons]
    by_cases hc : cur.contains t
    · rw [show startStep cur acc t = acc from by unfold startStep; rw [if_pos hc]]
      rw [ih]
      constructor
      · rintro (h | ⟨hg, hcg⟩)
        · exact Or.inl h
        · exact Or.inr ⟨List.mem_cons_of_mem t hg, hcg⟩
      · rintro (h | ⟨hg, hcg⟩)
        · exact Or.inl h
        · rcases List.mem_cons.1 hg with rfl | hg
          · exact absurd hc hcg
          · exact Or.inr ⟨hg, hcg⟩
    · rw [show startStep cur acc t =
            ((startWatcher t acc.1).1, acc.2 ++ (startWatcher t acc.1).2) from by
          unfold startStep; rw [if_neg hc]]
      rw [ih]
      simp only [mem_startWatcher_keys]
      constructor
      · rintro (⟨h | rfl⟩ | ⟨hg, hcg⟩)
        · exact Or.inl h
        · exact Or.inr ⟨List.mem_cons_self _ _, hc⟩
        · exact Or.inr ⟨List.mem_cons_of_mem t hg, hcg⟩
      · rintro (h | ⟨hg, hcg⟩)
        · exact Or.inl (Or.inl h)
        · rcases List.mem_cons.1 hg with rfl | hg
          · exact Or.inl (Or.inr rfl)
          · exact Or.inr ⟨hg, hcg⟩

theorem startFold_nodup (cur : List String) (tgt : List String) :
    ∀ acc : Registry × List String, acc.1.keys.Nodup →
    (tgt.foldl (startStep cur) acc).1.keys.Nodup := by
  induction tgt with
  | nil => intro acc h; exact h
  | cons t ts ih =>
    intro acc h
    rw [List.foldl_cons]
    by_cases hc : cur.contains t
    · rw [show startStep cur acc t = acc from by unfold startStep; rw [if_pos hc]]
      exact ih acc h
    · rw [show startStep cur acc t =
            ((startWatcher t acc.1).1, acc.2 ++ (startWatcher t acc.1).2) from by
          unfold startStep; rw [if_neg hc]]
      exact ih _ (startWatcher_nodup t acc.1 h)

theorem stopFold_noop (tgt : List String) (cur : List String) :
    ∀ acc : Registry × List String,
    (∀ k ∈ cur, tgt.contains k = true) →
    cur.foldl (stopStep tgt) acc = acc := by
  induction cur with
  | nil => intro acc _; rfl
  | cons f cs ih =>
    intro acc h
    rw [List.foldl_cons,
      show stopStep tgt acc f = acc from by
        unfold stopStep; rw [if_pos (h f (List.mem_cons_self f cs))]]
    exact ih acc (fun k hk => h k (List.mem_cons_of_mem f hk))

theorem startFold_noop (cur : List String) (tgt : List String) :
    ∀ acc : Registry × List String,
    (∀ t ∈ tgt, cur.contains t = true) →
    tgt.foldl (startStep cur) acc = acc := by
  induction tgt with
  | nil => intro acc _; rfl
  | cons t ts ih =>
    intro acc h
    rw [List.foldl_cons,
      show startStep cur acc t = acc from by
        unfold startStep; rw [if_pos (h t (List.mem_cons_self t ts))]]
    exact ih acc (fun k hk => h k (List.mem_cons_of_mem t hk))

theorem mem_pushUnique (acc : List String) (d g : String) :
    g ∈ pushUnique acc d ↔ g ∈ acc ∨ g = d := by
  unfold pushUnique
  by_cases h : acc.contains d
  · rw [if_pos h]
    constructor
    · exact Or.inl
    · rintro (hg | rfl)
      · exact hg
      · exact contains_iff.1 h
  · rw [if_neg h]
    simp

theorem mem_foldl_pushUnique (ds : List String) :
    ∀ (acc : List String) (g : String),
    g ∈ ds.foldl pushUnique acc ↔ g ∈ acc ∨ g ∈ ds := by
  induction ds with
  | nil => simp
  | cons d ds ih =>
    intro acc g
    rw [List.foldl_cons, ih, mem_pushUnique]
    constructor
    · rintro (⟨h | rfl⟩ | h)
      · exact Or.inl h
      · exact Or.inr (List.mem_cons_self _ _)
      · exact Or.inr (List.mem_cons_of_mem d h)
    · rintro (h | h)
      · exact Or.inl (Or.inl h)
      · rcases List.mem_cons.1 h with rfl | h
        · exact Or.inl (Or.inr rfl)
        · exact Or.inr h

theorem mem_targetList (cfg extra : List String) (g : String) :
    g ∈ targetList cfg extra ↔ g ∈ cfg ∨ g ∈ extra := by
  unfold targetList allFoldersOf
  rw [mem_foldl_pushUnique, mem_foldl_pushUnique]
  simp

/-- Membership in the registry keys after one reconciliation run is
exactly membership in the authoritative set, for every prior registry. -/
theorem syncWatchers_keys_mem (cfg extra : List String) (r : Registry)
    (cache : List String) (g : String) :
    g ∈ (syncWatchers cfg extra r cache).reg.keys ↔ g ∈ cfg ∨ g ∈ extra := by
  unfold syncWatchers startPhase
  rw [startFold_keys_mem, stopPhase_keys_self, ← mem_targetList cfg extra g]
  constructor
  · rintro (h | ⟨h, _⟩)
    · exact (List.mem_filter.1 h).1 |> fun _ => contains_iff.1 (List.mem_filter.1 h).2
    · exact h
  · intro h
    by_cases hk : g ∈ r.keys
    · exact Or.inl (List.mem_filter.2 ⟨hk, contains_iff.2 h⟩)
    · exact Or.inr ⟨h, fun hc => hk (contains_iff.1 hc)⟩

theorem syncWatchers_keys_nodup (cfg extra : List String) (r : Registry)
    (cache : List String) (h : r.keys.Nodup) :
    (syncWatchers cfg extra r cache).reg.keys.Nodup := by
  unfold syncWatchers startPhase
  apply startFold_nodup
  rw [stopPhase_keys_self]
  exact h.filter _

/-- Running `syncWatchers` a second time with the same inputs closes no
watcher, creates none, and leaves registry and cache unchanged. -/
theorem syncWatchers_second_noop (cfg extra : List String) (r : Registry)
    (cache : List String) :
    syncWatchers cfg extra (syncWatchers cfg extra r cache).reg
        (syncWatchers cfg extra r cache).cache =
      { reg := (syncWatchers cfg extra r cache).reg, cache := [],
        stopped := [], started := [] } := by
  have hmem : ∀ g, g ∈ (syncWatchers cfg extra r cache).reg.keys ↔
      g ∈ targetList cfg extra := by
    intro g
    rw [syncWatchers_keys_mem, mem_targetList]
  conv_lhs => rw [syncWatchers]
  rw [show stopPhase (targetList cfg extra)
        (syncWatchers cfg extra r cache).reg.keys
        (syncWatchers cfg extra r cache).reg =
      ((syncWatchers cfg extra r cache).reg, []) from
    stopFold_noop _ _ _ (fun k hk => contains_iff.2 ((hmem k).1 hk))]
  rw [show startPhase (targetList cfg extra)
        (syncWatchers cfg extra r cache).reg.keys
        (syncWatchers cfg extra r cache).reg =
      ((syncWatchers cfg extra r cache).reg, []) from
    startFold_noop _ _ _ (fun t ht => contains_iff.2 ((hmem t).2 ht))]

/-! ## `src/watcher.js` — directory watcher -/

/-- The `EVENTS` array of `src/watcher.js`. -/
def EVENTS : List String := ["change", "add", "unlink"]

/-- The `ignored` predicate `createWatcher` hands to chokidar: compute
the path relative to the root with separators normalised to `/`; an
empty or `"."` relative path is never ignored; otherwise
`config.isIgnored` decides.  `relRaw` is `path.relative(dir, filePath)`
and `sep` the host path separator, both supplied by the runtime. -/
def watcherIgnored (m : String → String → Bool) (patterns : List String)
    (sep : Char) (relRaw : String) : Bool :=
  let rel := splitJoinS sep '/' relRaw
  if rel = "" ∨ rel = "." then false
  else isIgnored m patterns rel

/-- A broadcast message `{type, folder, path}`. -/
structure WatchMsg where
  type : String
  folder : String
  path : String
deriving Repr, DecidableEq

/-- The per-event handler `createWatcher` registers for each event in
`EVENTS`: drop the event unless the absolute path ends in `.md`
case-insensitively; drop it when the normalised root-relative path is
ignored; otherwise broadcast `{type: event, folder: dir, path: rel}`. -/
def forwardEvent (m : String → String → Bool) (patterns : List String)
    (dir : String) (sep : Char) (event : String) (absPath relRaw : String) :
    Option WatchMsg :=
  if ¬ endsWithS (lowerS absPath) ".md" then none
  else
    let rel := splitJoinS sep '/' relRaw
    if isIgnored m patterns rel then none
    else some ⟨event, dir, rel⟩

/-! ## `src/server.js` — search -/

structure SearchMatch where
  line : Nat
  text : String
deriving Repr, DecidableEq

structure SearchResult where
  folder : String
  file : String
  -- the `matches` field of the JS result object
  matchRecords : List SearchMatch
deriving Repr, DecidableEq

/-- A file visible to `searchFiles`: its `scanMarkdown`-relative path
and its content split on `"\n"`.  Files whose read would fail are
simply absent (the source swallows the exception and skips them). -/
structure FileEntry where
  file : String
  lines : List String
deriving Repr, DecidableEq

/-- The line-match computation of `searchFiles` for one file's lines:
number lines from 1, trim each, keep those whose lower-cased text
contains `q` (the already lower-cased query). -/
def lineMatches (q : String) (lines : List String) : List SearchMatch :=
  (lines.enum.map (fun p => SearchMatch.mk (p.1 + 1) (trimS p.2))).filter
    (fun mrec => containsS (lowerS mrec.text) q)

/-- `searchFiles(folders, query)` with the filesystem as data: for each
folder the files `scanMarkdown` would yield, with their contents.  A
file produces a result entry when it has line matches or its relative
path contains the query; the entry carries the folder, the relative
path and the full match list. -/
def searchFiles (folders : List (String × List FileEntry)) (query : String) :
    List SearchResult :=
  let q := lowerS query
  folders.flatMap (fun fo =>
    fo.2.filterMap (fun fe =>
      let ms := lineMatches q fe.lines
      if ms.length ≠ 0 ∨ containsS (lowerS fe.file) q then
        some ⟨fo.1, fe.file, ms⟩
      else none))

/-! ## `src/config.js` — `linkFolder` -/

/-- The filesystem checks `linkFolder` performs
(`fs.existsSync`, `fs.statSync(..).isDirectory()`). -/
structure FsInfo where
  pathExists : String → Bool
  isDirectory : String → Bool

structure LinkResult where
  added : Bool
  path : String
  error : Option String

/-- Outcome of `linkFolder`: the JS result object, the persisted config
afterwards, every config snapshot passed to `write(data)`, and the
compiled-matcher cache. -/
structure LinkOutcome where
  res : LinkResult
  data : ConfigData
  writes : List ConfigData
  cache : List String

/-- `linkFolder(dir)`.  `abs` is `path.resolve(dir)` (computed by the
runtime and supplied as the canonical absolute path). -/
def linkFolder (fsi : FsInfo) (abs : String) (d : ConfigData)
    (cache : List String) : LinkOutcome :=
  if fsi.pathExists abs = false then
    ⟨⟨false, abs, some "path does not exist"⟩, d, [], cache⟩
  else if fsi.isDirectory abs = false then
    ⟨⟨false, abs, some "not a directory"⟩, d, [], cache⟩
  else if d.folders.contains abs then ⟨⟨false, abs, none⟩, d, [], cache⟩
  else
    let d2 := { d with folders := d.folders ++ [abs] }
    ⟨⟨true, abs, none⟩, d2, [d2], []⟩

/-! ## `src/server.js` — broadcast -/

/-- A WebSocket client as `broadcast` sees it: its `readyState` and an
identity.  State 1 is OPEN. -/
structure Client where
  id : Nat
  readyState : Nat
deriving Repr, DecidableEq

/-- What one `broadcast(wss, data)` call did: the serialized message,
the `(client id, payload)` sends performed, and how many times
`JSON.stringify` ran. -/
structure BroadcastOut where
  msg : String
  sends : List (Nat × String)
  serialCalls : Nat
deriving Repr, DecidableEq

/-- `broadcast(wss, data)`: stringify the event once, then send the
resulting string to every client whose `readyState` is 1. -/
def broadcast {Event : Type} (stringify : Event → String)
    (clients : List Client) (data : Event) : BroadcastOut :=
  let msg := stringify data
  ⟨msg, (clients.filter (fun c => c.readyState == 1)).map (fun c => (c.id, msg)), 1⟩

theorem broadcast_skips_closed {Event : Type} (stringify : Event → String)
    (pre post : List Client) (c : Client) (data : Event)
    (h : c.readyState ≠ 1) :
    broadcast stringify (pre ++ c :: post) data =
      broadcast stringify (pre ++ post) data := by
  unfold broadcast
  have hc : (c.readyState == 1) = false := by
    simpa using h
  simp [List.filter_append, List.filter_cons, hc]

/-! ## Node `path` module (POSIX semantics) and `GET /api/file`

`path.resolve` / `path.relative` over absolute paths, modelled on
`/`-separated segment lists. -/

/-- One step of path normalisation: `""` and `"."` segments vanish,
`".."` pops the last segment (a `".."` at the root stays at the root),
anything else is pushed. -/
def normStep (stack : List String) (seg : String) : List String :=
  if seg = "" ∨ seg = "." then stack
  else if seg = ".." then stack.dropLast
  else stack ++ [seg]

/-- The `/`-separated segments of a path string. -/
def pathSegs (s : String) : List String :=
  (splitSep '/' s.data).map (fun g => (⟨g⟩ : String))

/-- Normalised segment list of a path string. -/
def normSegs (s : String) : List String :=
  (pathSegs s).foldl normStep []

/-- `path.isAbsolute(s)` (POSIX). -/
def isAbsoluteS (s : String) : Bool := startsWithS s "/"

/-- `path.resolve(base, rel)` for an absolute `base`: segments of the
resulting absolute path. -/
def resolveSegs (base rel : String) : List String :=
  if isAbsoluteS rel then normSegs rel
  else (pathSegs base ++ pathSegs rel).foldl normStep []

/-- Render an absolute path from its segments (`[] ↦ "/"`). -/
def joinAbs (segs : List String) : String :=
  ⟨'/' :: joinSep '/' (segs.map String.data)⟩

/-- `path.resolve(base, rel)` as a string, for an absolute `base`. -/
def resolveS (base rel : String) : String := joinAbs (resolveSegs base rel)

/-- Length of the longest common prefix of two segment lists. -/
def commonPrefixLen : List String → List String → Nat
  | a :: as, b :: bs => if a = b then commonPrefixLen as bs + 1 else 0
  | _, _ => 0

/-- The segment walk from absolute `p` to absolute `c`:
`".."` for every segment of `p` past the common prefix, then the rest
of `c`. -/
def relSegs (p c : List String) : List String :=
  List.replicate (p.length - commonPrefixLen p c) ".." ++
    c.drop (commonPrefixLen p c)

/-- `path.relative(pfrom, pto)` for absolute arguments. -/
def relativeS (pfrom pto : String) : String :=
  ⟨joinSep '/' ((relSegs (normSegs pfrom) (normSegs pto)).map String.data)⟩

/-- `isWithin(parent, child)` from `src/server.js`:
`const rel = path.relative(parent, child);`
`return !rel.startsWith("..") && !path.isAbsolute(rel);` -/
def isWithin (parent child : String) : Bool :=
  let rel := relativeS parent child
  !(startsWithS rel "..") && !(isAbsoluteS rel)

/-- The semantic notion the claim speaks about: the resolved absolute
path lies inside the folder's subtree (the folder's normalised segments
are a prefix of the path's). -/
def liesWithin (folder abs : List String) : Prop := folder <+: abs

/-- HTTP outcome of the `GET /api/file` handler. -/
inductive FileResp
  | badRequest
  | forbidden (msg : String)
  | ok (content : String)
  | notFound
deriving Repr, DecidableEq

/-- The `GET /api/file` handler: missing/empty query parameters give
400; a folder outside the current folder set gives 403; a resolved path
failing `isWithin` gives 403 `"forbidden"`; otherwise the file is read
(`fsRead` models `fs.readFile`, `none` = throw → 404).  The second
component lists the absolute paths passed to `fs.readFile`. -/
def fileRoute (folders : List String) (fsRead : String → Option String)
    (folder rel : Option String) : FileResp × List String :=
  match folder, rel with
  | some folder, some rel =>
    if folder = "" ∨ rel = "" then (.badRequest, [])
    else if ¬ folders.contains folder = true then
      (.forbidden "folder not linked", [])
    else
      let abs := resolveS folder rel
      if ¬ isWithin folder abs = true then (.forbidden "forbidden", [])
      else
        match fsRead abs with
        | some content => (.ok content, [abs])
        | none => (.notFound, [abs])
  | _, _ => (.badRequest, [])

/-! ### Path lemmas -/

/-- A segment produced by splitting never contains the separator. -/
theorem splitSep_no_sep (sep : Char) (l : List Char) :
    ∀ g ∈ splitSep sep l, sep ∉ g := by
  induction l with
  | nil =>
    intro g hg
    simp only [splitSep, List.mem_singleton] at hg
    subst hg
    exact List.not_mem_nil sep
  | cons c rest ih =>
    intro g hg
    by_cases hc : c == sep
    · rw [splitSep, if_pos hc] at hg
      rcases List.mem_cons.1 hg with rfl | hg
      · exact List.not_mem_nil sep
      · exact ih g hg
    · rw [splitSep, if_neg hc] at hg
      have hcne : c ≠ sep := fun h => hc (by simp [h])
      rcases hsplit : splitSep sep rest with _ | ⟨g0, gs⟩
      · rw [hsplit] at hg
        simp only [List.mem_singleton] at hg
        subst hg
        intro hmem
        rcases List.mem_singleton.1 hmem with rfl
        exact hcne rfl
      · rw [hsplit] at hg
        rcases List.mem_cons.1 hg with rfl | hg
        · intro hmem
          rcases List.mem_cons.1 hmem with rfl | hmem
          · exact hcne rfl
          · exact ih g0 (hsplit ▸ List.mem_cons_self g0 gs) hmem
        · exact ih g (hsplit ▸ List.mem_cons_of_mem g0 hg)

/-- `splitSep` never returns the empty list of groups. -/
theorem splitSep_ne_nil (sep : Char) (l : List Char) :
    splitSep sep l ≠ [] := by
  cases l with
  | nil => simp [splitSep]
  | cons c rest =>
    by_cases hc : c == sep
    · rw [splitSep, if_pos hc]
      simp
    · rw [splitSep, if_neg hc]
      rcases hsplit : splitSep sep rest with _ | ⟨g0, gs⟩ <;> simp

/-- Splitting a separator-free list yields a single group. -/
theorem splitSep_of_no_sep (sep : Char) (l : List Char) (h : sep ∉ l) :
    splitSep sep l = [l] := by
  induction l with
  | nil => rfl
  | cons c rest ih =>
    have hc : ¬ c == sep := by
      simp only [beq_iff_eq]
      rintro rfl
      exact h (List.mem_cons_self c rest)
    rw [splitSep, if_neg hc, ih (fun hm => h (List.mem_cons_of_mem c hm))]

/-- Splitting after a separator resumes group by group. -/
theorem splitSep_append_sep (sep : Char) (g rest : List Char) (h : sep ∉ g) :
    splitSep sep (g ++ sep :: rest) = g :: splitSep sep rest := by
  induction g with
  | nil =>
    simp only [List.nil_append]
    rw [splitSep, if_pos (beq_self_eq_true sep)]
  | cons c g ih =>
    have hc : ¬ c == sep := by
      simp only [beq_iff_eq]
      rintro rfl
      exact h (List.mem_cons_self c g)
    rw [List.cons_append, splitSep, if_neg hc,
      ih (fun hm => h (List.mem_cons_of_mem c hm))]

/-- Round trip: splitting a join recovers the groups, provided no group
contains the separator. -/
theorem splitSep_joinSep (sep : Char) (gs : List (List Char))
    (hne : gs ≠ []) (h : ∀ g ∈ gs, sep ∉ g) :
    splitSep sep (joinSep sep gs) = gs := by
  induction gs with
  | nil => exact absurd rfl hne
  | cons g gs ih =>
    cases gs with
    | nil =>
      rw [joinSep]
      exact splitSep_of_no_sep sep g (h g (List.mem_cons_self g []))
    | cons g2 gs2 =>
      rw [show joinSep sep (g :: g2 :: gs2) = g ++ sep :: joinSep sep (g2 :: gs2)
          from rfl]
      rw [splitSep_append_sep sep _ _ (h g (List.mem_cons_self _ _))]
      rw [ih (by simp) (fun x hx => h x (List.mem_cons_of_mem g hx))]

/-- A well-formed path segment: not empty, not `"."`, not `".."`, no
separator inside. -/
def goodSeg (s : String) : Prop :=
  s ≠ "" ∧ s ≠ "." ∧ s ≠ ".." ∧ '/' ∉ s.data

theorem foldl_normStep_good (segs : List String) :
    ∀ stack : List String, (∀ x ∈ stack, goodSeg x) →
    (∀ x ∈ segs, '/' ∉ x.data) →
    ∀ x ∈ segs.foldl normStep stack, goodSeg x := by
  induction segs with
  | nil => intro stack hstack _ x hx; exact hstack x hx
  | cons s ss ih =>
    intro stack hstack hns x hx
    rw [List.foldl_cons] at hx
    refine ih (normStep stack s) ?_ (fun y hy => hns y (List.mem_cons_of_mem s hy)) x hx
    intro y hy
    unfold normStep at hy
    by_cases h1 : s = "" ∨ s = "."
    · rw [if_pos h1] at hy; exact hstack y hy
    · rw [if_neg h1] at hy
      by_cases h2 : s = ".."
      · rw [if_pos h2] at hy
        exact hstack y (List.Sublist.subset (List.dropLast_sublist stack) hy)
      · rw [if_neg h2] at hy
        rcases List.mem_append.1 hy with hy | hy
        · exact hstack y hy
        · have hys := List.mem_singleton.1 hy
          rw [hys]
          push_neg at h1
          exact ⟨h1.1, h1.2, h2, hns s (List.mem_cons_self s ss)⟩

/-- No segment of a split path contains the separator. -/
theorem pathSegs_no_slash (s : String) :
    ∀ x ∈ pathSegs s, '/' ∉ x.data := by
  intro x hx
  unfold pathSegs at hx
  rcases List.mem_map.1 hx with ⟨g, hg, rfl⟩
  exact splitSep_no_sep '/' s.data g hg

theorem resolveSegs_good (base rel : String) :
    ∀ x ∈ resolveSegs base rel, goodSeg x := by
  unfold resolveSegs
  by_cases h : isAbsoluteS rel
  · rw [if_pos h]
    exact foldl_normStep_good _ [] (by simp) (pathSegs_no_slash rel)
  · rw [if_neg h]
    refine foldl_normStep_good _ [] (by simp) ?_
    intro x hx
    rcases List.mem_append.1 hx with hx | hx
    · exact pathSegs_no_slash base x hx
    · exact pathSegs_no_slash rel x hx

theorem foldl_normStep_of_good (segs : List String) :
    ∀ stack : List String, (∀ x ∈ segs, goodSeg x) →
    segs.foldl normStep stack = stack ++ segs := by
  induction segs with
  | nil => intro stack _; simp
  | cons s ss ih =>
    intro stack hgood
    rcases hgood s (List.mem_cons_self s ss) with ⟨h1, h2, h3, _⟩
    rw [List.foldl_cons,
      show normStep stack s = stack ++ [s] from by
        unfold normStep
        rw [if_neg (by tauto), if_neg h3],
      ih _ (fun x hx => hgood x (List.mem_cons_of_mem s hx))]
    simp

theorem map_mk_data (l : List String) :
    (l.map String.data).map (fun g => (⟨g⟩ : String)) = l := by
  rw [List.map_map]
  exact List.map_id'' (fun s => rfl) l

/-- Normalising the rendering of good segments recovers them. -/
theorem normSegs_joinAbs (segs : List String)
    (hgood : ∀ x ∈ segs, goodSeg x) : normSegs (joinAbs segs) = segs := by
  unfold normSegs pathSegs joinAbs
  cases segs with
  | nil =>
    rfl
  | cons s ss =>
    rw [show ('/' :: joinSep '/' ((s :: ss).map String.data) : List Char) =
        [] ++ '/' :: joinSep '/' ((s :: ss).map String.data) from rfl,
      splitSep_append_sep '/' [] _ (List.not_mem_nil _),
      splitSep_joinSep '/' _ (by simp) ?_]
    · rw [List.map_cons, map_mk_data]
      rw [show (((⟨[]⟩ : String) :: s :: ss).foldl normStep []) =
          (s :: ss).foldl normStep (normStep [] ⟨[]⟩) from rfl]
      rw [show normStep [] (⟨[]⟩ : String) = [] from by
        unfold normStep
        rw [if_pos (Or.inl rfl)]]
      exact foldl_normStep_of_good _ [] hgood
    · intro g hg
      rcases List.mem_map.1 hg with ⟨x, hx, rfl⟩
      exact (hgood x hx).2.2.2

theorem commonPrefixLen_le_left (p c : List String) :
    commonPrefixLen p c ≤ p.length := by
  induction p generalizing c with
  | nil => cases c <;> simp [commonPrefixLen]
  | cons a as ih =>
    cases c with
    | nil => simp [commonPrefixLen]
    | cons b bs =>
      unfold commonPrefixLen
      by_cases h : a = b
      · rw [if_pos h]
        simpa using ih bs
      · rw [if_neg h]
        simp

theorem commonPrefixLen_eq_length_iff (p c : List String) :
    commonPrefixLen p c = p.length ↔ p <+: c := by
  induction p generalizing c with
  | nil => cases c <;> simp [commonPrefixLen]
  | cons a as ih =>
    cases c with
    | nil =>
      simp [commonPrefixLen]
    | cons b bs =>
      unfold commonPrefixLen
      by_cases h : a = b
      · rw [if_pos h]
        subst h
        simp only [List.length_cons, Nat.add_right_cancel_iff, ih bs,
          List.cons_prefix_cons]
        tauto
      · rw [if_neg h]
        simp only [List.cons_prefix_cons]
        constructor
        · intro habs
          simp at habs
        · rintro ⟨rfl, -⟩
          exact absurd rfl h

theorem startsL_append_self (l t : List Char) : startsL l (l ++ t) = true := by
  induction l with
  | nil => rfl
  | cons c l ih => simp [startsL, ih]

theorem joinSep_cons_exists (sep : Char) (g : List Char)
    (gs : List (List Char)) : ∃ t, joinSep sep (g :: gs) = g ++ t := by
  cases gs with
  | nil => exact ⟨[], by simp [joinSep]⟩
  | cons g2 gs2 => exact ⟨sep :: joinSep sep (g2 :: gs2), rfl⟩

/-- If the `isWithin` test of the server accepts `child = joinAbs segs`
(with well-formed segments), the folder's normalised segments are a
prefix of `segs`: the path really lies inside the folder's subtree. -/
theorem isWithin_imp_inside (folder : String) (segs : List String)
    (hgood : ∀ x ∈ segs, goodSeg x)
    (h : isWithin folder (joinAbs segs) = true) :
    normSegs folder <+: segs := by
  unfold isWithin at h
  rw [Bool.and_eq_true, Bool.not_eq_true', Bool.not_eq_true'] at h
  by_cases hk : commonPrefixLen (normSegs folder) segs = (normSegs folder).length
  · exact (commonPrefixLen_eq_length_iff _ segs).1 hk
  · exfalso
    have hlt : commonPrefixLen (normSegs folder) segs < (normSegs folder).length :=
      lt_of_le_of_ne (commonPrefixLen_le_left _ segs) hk
    obtain ⟨n, hn⟩ : ∃ n,
        (normSegs folder).length - commonPrefixLen (normSegs folder) segs =
          n + 1 :=
      ⟨(normSegs folder).length - commonPrefixLen (normSegs folder) segs - 1,
        by omega⟩
    have hstr : startsL (String.data "..")
        (joinSep '/'
          ((relSegs (normSegs folder) (normSegs (joinAbs segs))).map
            String.data)) = false := h.1
    rw [normSegs_joinAbs segs hgood] at hstr
    unfold relSegs at hstr
    rw [hn, List.replicate_succ, List.cons_append, List.map_cons] at hstr
    obtain ⟨t, ht⟩ := joinSep_cons_exists '/'
      (String.data "..")
      ((List.replicate n ".." ++
          segs.drop (commonPrefixLen (normSegs folder) segs)).map String.data)
    rw [ht, startsL_append_self] at hstr
    exact Bool.noConfusion hstr

/-! ### Separator normalisation -/

theorem mem_joinSep (sep : Char) (gs : List (List Char)) (c : Char) :
    c ∈ joinSep sep gs → c = sep ∨ ∃ g ∈ gs, c ∈ g := by
  induction gs with
  | nil => intro h; exact absurd h (List.not_mem_nil c)
  | cons g gs ih =>
    cases gs with
    | nil =>
      intro h
      rw [joinSep] at h
      exact Or.inr ⟨g, List.mem_cons_self g [], h⟩
    | cons g2 gs2 =>
      intro h
      rw [show joinSep sep (g :: g2 :: gs2) = g ++ sep :: joinSep sep (g2 :: gs2)
          from rfl] at h
      rcases List.mem_append.1 h with h | h
      · exact Or.inr ⟨g, List.mem_cons_self g _, h⟩
      · rcases List.mem_cons.1 h with rfl | h
        · exact Or.inl rfl
        · rcases ih h with h | ⟨g', hg', hc⟩
          · exact Or.inl h
          · exact Or.inr ⟨g', List.mem_cons_of_mem g hg', hc⟩

/-- After `split(sep).join("/")` no host separator remains in the path. -/
theorem splitJoinS_no_sep (sep : Char) (s : String) (h : sep ≠ '/') :
    sep ∉ (splitJoinS sep '/' s).data := by
  intro hmem
  rcases mem_joinSep '/' (splitSep sep s.data) sep hmem with h1 | ⟨g, hg, hc⟩
  · exact h h1
  · exact splitSep_no_sep sep s.data g hg hc

/-! ## Configuration edit sequences (for the default-pattern invariant) -/

/-- A user-facing ignore-pattern mutation. -/
inductive IgnoreOp
  | add (p : String)
  | remove (p : String)

/-- Apply one mutation to the persisted config (result object and cache
dropped: only the config evolution matters for the invariant). -/
def applyIgnoreOp (d : ConfigData) (op : IgnoreOp) : ConfigData :=
  match op with
  | .add p => (addIgnorePattern p d []).2.1
  | .remove p => (removeIgnorePattern p d []).2.1

/-- Apply a whole sequence of mutations. -/
def applyIgnoreOps (d : ConfigData) (ops : List IgnoreOp) : ConfigData :=
  ops.foldl applyIgnoreOp d

/-! ### Search helper lemmas -/

theorem filterMap_ite {α β : Type} (P : α → Prop) [DecidablePred P]
    (g : α → β) (l : List α) :
    l.filterMap (fun a => if P a then some (g a) else none) =
      (l.filter (fun a => decide (P a))).map g := by
  induction l with
  | nil => rfl
  | cons a l ih =>
    by_cases h : P a <;>
      simp [List.filterMap_cons, List.filter_cons, h, ih]

/-- Every matching line appears in `lineMatches`, not just the first
five: membership is exactly "some line of the file matches". -/
theorem mem_lineMatches (q : String) (lines : List String)
    (mrec : SearchMatch) :
    mrec ∈ lineMatches q lines ↔
      ∃ i text, lines[i]? = some text ∧ mrec.line = i + 1 ∧
        mrec.text = trimS text ∧
        containsS (lowerS (trimS text)) q = true := by
  unfold lineMatches
  rw [List.mem_filter]
  constructor
  · rintro ⟨hmem, hpred⟩
    rcases List.mem_map.1 hmem with ⟨⟨i, text⟩, hienum, hf⟩
    refine ⟨i, text, List.mem_enum_iff_getElem?.1 hienum, ?_, ?_, ?_⟩
    · rw [← hf]
    · rw [← hf]
    · rw [← show mrec.text = trimS text from by rw [← hf]]
      exact hpred
  · rintro ⟨i, text, hget, hline, htext, hcontains⟩
    refine ⟨List.mem_map.2 ⟨(i, text), List.mem_enum_iff_getElem?.2 hget, ?_⟩, ?_⟩
    · cases mrec with
      | mk l t =>
        simp only at hline htext
        rw [hline, htext]
    · rw [htext]
      exact hcontains

/-! ## Claims -/

/-- C1: After every run of the reconciler `syncWatchers(wss, extraDirs)`,
the watcher registry holds exactly one handle for every root in the
authoritative set (config folders ∪ session extraDirs) and no handle for
any root outside that set, for every prior registry state. -/
theorem claim_C1 (cfg extra : List String) (r : Registry)
    (cache : List String) (hnd : r.keys.Nodup) :
    (∀ g, g ∈ (syncWatchers cfg extra r cache).reg.keys ↔
      (g ∈ cfg ∨ g ∈ extra)) ∧
    (∀ g, (g ∈ cfg ∨ g ∈ extra) →
      (syncWatchers cfg extra r cache).reg.keys.count g = 1) := by
  refine ⟨fun g => syncWatchers_keys_mem cfg extra r cache g, fun g hg => ?_⟩
  exact List.count_eq_one_of_mem
    (syncWatchers_keys_nodup cfg extra r cache hnd)
    ((syncWatchers_keys_mem cfg extra r cache g).2 hg)

theorem claim_C1_witness :
    ("/c" ∈ (syncWatchers ["/a", "/b"] ["/b", "/c"]
        (Registry.mk [("/z", 0)] 1) ["pat"]).reg.keys ↔
      ("/c" ∈ ["/a", "/b"] ∨ "/c" ∈ ["/b", "/c"])) ∧
    (syncWatchers ["/a", "/b"] ["/b", "/c"]
        (Registry.mk [("/z", 0)] 1) ["pat"]).reg.keys.count "/c" = 1 :=
  ⟨(claim_C1 ["/a", "/b"] ["/b", "/c"] (Registry.mk [("/z", 0)] 1) ["pat"]
      (by decide)).1 "/c",
   (claim_C1 ["/a", "/b"] ["/b", "/c"] (Registry.mk [("/z", 0)] 1) ["pat"]
      (by decide)).2 "/c" (by decide)⟩

/-- C2: `isIgnored(relativePath)` returns true iff the path matches at
least one active pattern (built-in defaults ∪ user patterns), the result
is order-independent, and the watcher's ignored callback never ignores
an empty or `"."` relative path. -/
theorem claim_C2 (m : String → String → Bool) (d : ConfigData)
    (relPath : String) (cache : List String) (ps qs : List String)
    (hperm : ps.Perm qs) :
    ((isIgnoredSt m (getIgnorePatterns d) relPath cache).1 = true ↔
      ∃ p, (p ∈ DEFAULT_IGNORE ∨ p ∈ d.ignore.getD []) ∧ m p relPath = true) ∧
    (isIgnoredSt m ps relPath cache).1 = (isIgnoredSt m qs relPath cache).1 ∧
    (∀ (sep : Char) (relRaw : String),
      splitJoinS sep '/' relRaw = "" ∨ splitJoinS sep '/' relRaw = "." →
      watcherIgnored m [] sep relRaw = false ∧
      watcherIgnored m (getIgnorePatterns d) sep relRaw = false) := by
  refine ⟨?_, ?_, ?_⟩
  · rw [isIgnoredSt_fst]
    unfold isIgnored getIgnorePatterns
    rw [List.any_eq_true]
    constructor
    · rintro ⟨p, hp, hm⟩
      exact ⟨p, List.mem_append.1 hp, hm⟩
    · rintro ⟨p, hp, hm⟩
      exact ⟨p, List.mem_append.2 hp, hm⟩
  · rw [isIgnoredSt_fst, isIgnoredSt_fst]
    unfold isIgnored
    rw [Bool.eq_iff_iff, List.any_eq_true, List.any_eq_true]
    constructor
    · rintro ⟨p, hp, hm⟩
      exact ⟨p, hperm.mem_iff.1 hp, hm⟩
    · rintro ⟨p, hp, hm⟩
      exact ⟨p, hperm.mem_iff.2 hp, hm⟩
  · intro sep relRaw h
    constructor <;>
      exact show (if splitJoinS sep '/' relRaw = "" ∨ splitJoinS sep '/' relRaw = "."
          then false else _) = false from if_pos h

theorem claim_C2_witness :
    (["a", "b"].Perm ["b", "a"]) ∧
    (((isIgnoredSt (fun p s => p == s)
        (getIgnorePatterns (ConfigData.mk [] (some []))) "b" []).1 = true ↔
      ∃ p, (p ∈ DEFAULT_IGNORE ∨ p ∈ (some ([] : List String)).getD []) ∧
        (p == "b") = true) ∧
    (isIgnoredSt (fun p s => p == s) ["a", "b"] "b" []).1 =
      (isIgnoredSt (fun p s => p == s) ["b", "a"] "b" []).1 ∧
    (∀ (sep : Char) (relRaw : String),
      splitJoinS sep '/' relRaw = "" ∨ splitJoinS sep '/' relRaw = "." →
      watcherIgnored (fun p s => p == s) [] sep relRaw = false ∧
      watcherIgnored (fun p s => p == s)
        (getIgnorePatterns (ConfigData.mk [] (some []))) sep relRaw = false)) :=
  ⟨by decide,
   claim_C2 (fun p s => p == s) (ConfigData.mk [] (some [])) "b" []
     ["a", "b"] ["b", "a"] (by decide)⟩

/-- C3: `startWatcher` and `syncWatchers` are idempotent: a second
`startWatcher(R)` is a no-op leaving exactly one unchanged handle for R,
and a second `syncWatchers` with the same authoritative set stops
nothing, starts nothing, and changes neither registry nor cache. -/
theorem claim_C3 (R : String) (r : Registry) (cfg extra cache : List String)
    (hnd : r.keys.Nodup) :
    startWatcher R (startWatcher R r).1 = ((startWatcher R r).1, []) ∧
    (startWatcher R (startWatcher R r).1).1.keys.count R = 1 ∧
    (syncWatchers cfg extra (syncWatchers cfg extra r cache).reg
        (syncWatchers cfg extra r cache).cache).reg =
      (syncWatchers cfg extra r cache).reg ∧
    (syncWatchers cfg extra (syncWatchers cfg extra r cache).reg
        (syncWatchers cfg extra r cache).cache).cache =
      (syncWatchers cfg extra r cache).cache ∧
    (syncWatchers cfg extra (syncWatchers cfg extra r cache).reg
        (syncWatchers cfg extra r cache).cache).stopped = [] ∧
    (syncWatchers cfg extra (syncWatchers cfg extra r cache).reg
        (syncWatchers cfg extra r cache).cache).started = [] := by
  have hnoop := syncWatchers_second_noop cfg extra r cache
  refine ⟨startWatcher_idem R r, ?_, ?_, ?_, ?_, ?_⟩
  · rw [startWatcher_idem R r]
    exact List.count_eq_one_of_mem (startWatcher_nodup R r hnd)
      ((mem_startWatcher_keys R R r).2 (Or.inr rfl))
  · rw [hnoop]
  · rw [hnoop]
    rfl
  · rw [hnoop]
  · rw [hnoop]

theorem claim_C3_witness :
    startWatcher "/a" (startWatcher "/a" (Registry.mk [] 0)).1 =
      ((startWatcher "/a" (Registry.mk [] 0)).1, []) ∧
    (startWatcher "/a" (startWatcher "/a" (Registry.mk [] 0)).1).1.keys.count
      "/a" = 1 ∧
    (syncWatchers ["/a"] [] (syncWatchers ["/a"] [] (Registry.mk [] 0) []).reg
        (syncWatchers ["/a"] [] (Registry.mk [] 0) []).cache).reg =
      (syncWatchers ["/a"] [] (Registry.mk [] 0) []).reg ∧
    (syncWatchers ["/a"] [] (syncWatchers ["/a"] [] (Registry.mk [] 0) []).reg
        (syncWatchers ["/a"] [] (Registry.mk [] 0) []).cache).cache =
      (syncWatchers ["/a"] [] (Registry.mk [] 0) []).cache ∧
    (syncWatchers ["/a"] [] (syncWatchers ["/a"] [] (Registry.mk [] 0) []).reg
        (syncWatchers ["/a"] [] (Registry.mk [] 0) []).cache).stopped = [] ∧
    (syncWatchers ["/a"] [] (syncWatchers ["/a"] [] (Registry.mk [] 0) []).reg
        (syncWatchers ["/a"] [] (Registry.mk [] 0) []).cache).started = [] :=
  claim_C3 "/a" (Registry.mk [] 0) ["/a"] [] [] (by decide)

/-- C4: A directory watcher forwards a raw OS event iff the absolute
path ends in `.md` case-insensitively and the root-relative path is not
ignored; every forwarded message is `{type ∈ EVENTS, folder = root,
path = relative path with forward-slash separators}`. -/
theorem claim_C4 (m : String → String → Bool) (patterns : List String)
    (dir : String) (sep : Char) (event absPath relRaw : String)
    (hev : event ∈ EVENTS) :
    (∀ msg, forwardEvent m patterns dir sep event absPath relRaw = some msg ↔
      (endsWithS (lowerS absPath) ".md" = true ∧
       isIgnored m patterns (splitJoinS sep '/' relRaw) = false ∧
       msg = WatchMsg.mk event dir (splitJoinS sep '/' relRaw))) ∧
    (∀ msg, forwardEvent m patterns dir sep event absPath relRaw = some msg →
      (msg.type = "change" ∨ msg.type = "add" ∨ msg.type = "unlink") ∧
      msg.folder = dir ∧
      msg.path = splitJoinS sep '/' relRaw ∧
      (sep ≠ '/' → sep ∉ msg.path.data)) := by
  have hmain : ∀ msg,
      forwardEvent m patterns dir sep event absPath relRaw = some msg ↔
      (endsWithS (lowerS absPath) ".md" = true ∧
       isIgnored m patterns (splitJoinS sep '/' relRaw) = false ∧
       msg = WatchMsg.mk event dir (splitJoinS sep '/' relRaw)) := by
    intro msg
    unfold forwardEvent
    by_cases hmd : endsWithS (lowerS absPath) ".md" = true
    · rw [if_neg (by simp [hmd])]
      by_cases hig : isIgnored m patterns (splitJoinS sep '/' relRaw) = true
      · rw [if_pos hig]
        constructor
        · intro h; exact absurd h (by simp)
        · rintro ⟨-, hig2, -⟩
          rw [hig] at hig2
          exact absurd hig2 (by simp)
      · rw [if_neg hig]
        constructor
        · intro h
          exact ⟨hmd, Bool.not_eq_true _ ▸ Bool.eq_false_iff.2 hig,
            (Option.some_inj.1 h).symm⟩
        · rintro ⟨-, -, rfl⟩
          rfl
    · rw [if_pos (by simpa using hmd)]
      constructor
      · intro h; exact absurd h (by simp)
      · rintro ⟨hmd2, -, -⟩
        exact absurd hmd2 hmd
  refine ⟨hmain, fun msg h => ?_⟩
  rcases (hmain msg).1 h with ⟨-, -, rfl⟩
  refine ⟨?_, rfl, rfl, fun hsep => splitJoinS_no_sep sep relRaw hsep⟩
  simpa [EVENTS] using hev

theorem claim_C4_witness :
    (∀ msg, forwardEvent (fun p s => p == s) ["sub/b.md"] "/r" '\\' "add"
        "C:\\r\\sub\\a.MD" "sub\\a.MD" = some msg ↔
      (endsWithS (lowerS "C:\\r\\sub\\a.MD") ".md" = true ∧
       isIgnored (fun p s => p == s) ["sub/b.md"]
         (splitJoinS '\\' '/' "sub\\a.MD") = false ∧
       msg = WatchMsg.mk "add" "/r" (splitJoinS '\\' '/' "sub\\a.MD"))) ∧
    (∀ msg, forwardEvent (fun p s => p == s) ["sub/b.md"] "/r" '\\' "add"
        "C:\\r\\sub\\a.MD" "sub\\a.MD" = some msg →
      (msg.type = "change" ∨ msg.type = "add" ∨ msg.type = "unlink") ∧
      msg.folder = "/r" ∧
      msg.path = splitJoinS '\\' '/' "sub\\a.MD" ∧
      ('\\' ≠ '/' → '\\' ∉ msg.path.data)) :=
  claim_C4 (fun p s => p == s) ["sub/b.md"] "/r" '\\' "add"
    "C:\\r\\sub\\a.MD" "sub\\a.MD" (by decide)

/-- C5 counterexample: the claim caps each result entry at the first 5
line-match records, but `searchFiles` returns every matching line — a
file with six matching lines yields six records. -/
theorem claim_C5_counterexample :
    ∃ r ∈ searchFiles
      [("/f", [FileEntry.mk "a.md" ["ax", "bx", "cx", "dx", "ex", "fx"]])]
      "x", 5 < r.matchRecords.length := by
  decide

/-- C5 (amended): `search` returns one result entry per file whose
relative path contains the query or having at least one line whose
trimmed text contains the query (case-insensitively); each entry carries
the folder, the file's relative path, and one `{line, text}` record for
every matching line (no truncation — the first-5 cap is applied only in
the client display layer). -/
theorem claim_C5_amended (folders : List (String × List FileEntry))
    (query : String) :
    searchFiles folders query =
      folders.flatMap (fun fo =>
        (fo.2.filter (fun fe =>
            decide (lineMatches (lowerS query) fe.lines ≠ [] ∨
              containsS (lowerS fe.file) (lowerS query) = true))).map
          (fun fe =>
            SearchResult.mk fo.1 fe.file
              (lineMatches (lowerS query) fe.lines))) ∧
    (∀ q lines mrec, mrec ∈ lineMatches q lines ↔
      ∃ i text, lines[i]? = some text ∧ mrec.line = i + 1 ∧
        mrec.text = trimS text ∧
        containsS (lowerS (trimS text)) q = true) := by
  constructor
  · simp only [searchFiles]
    congr 1
    funext fo
    rw [filterMap_ite
        (fun fe => (lineMatches (lowerS query) fe.lines).length ≠ 0 ∨
          containsS (lowerS fe.file) (lowerS query) = true)
        (fun fe =>
          SearchResult.mk fo.1 fe.file (lineMatches (lowerS query) fe.lines))
        fo.2]
    apply congrArg (List.map _)
    apply List.filter_congr
    intro fe _
    by_cases h1 : lineMatches (lowerS query) fe.lines = []
    · simp [h1]
    · simp [h1, List.length_eq_zero]
  · exact fun q lines mrec => mem_lineMatches q lines mrec

/-- C6: Built-in default ignore patterns are not individually removable:
after any sequence of `addIgnorePattern`/`removeIgnorePattern` calls,
`getIgnorePatterns` still contains every built-in default pattern. -/
theorem claim_C6 (ops : List IgnoreOp) (d : ConfigData) (p : String)
    (hp : p ∈ DEFAULT_IGNORE) :
    p ∈ getIgnorePatterns (applyIgnoreOps d ops) := by
  unfold getIgnorePatterns
  exact List.mem_append_left _ hp

theorem claim_C6_witness :
    "**/dist/**" ∈ DEFAULT_IGNORE ∧
    "**/dist/**" ∈ getIgnorePatterns
      (applyIgnoreOps (ConfigData.mk [] (some DEFAULT_IGNORE))
        [IgnoreOp.remove "**/dist/**"]) :=
  ⟨by decide,
   claim_C6 [IgnoreOp.remove "**/dist/**"]
     (ConfigData.mk [] (some DEFAULT_IGNORE)) "**/dist/**" (by decide)⟩

/-- C7 counterexample: when `ensureDefaults` applies the default list
for the first time (a config with no `ignore` key), it writes the
defaults but does not clear the compiled-matcher cache, contradicting
the claim that the cache is cleared before the operation returns. -/
theorem claim_C7_counterexample :
    (ensureDefaults (ConfigData.mk [] none) ["**/x/**"]).1.ignore =
      some DEFAULT_IGNORE ∧
    (ensureDefaults (ConfigData.mk [] none) ["**/x/**"]).2 = ["**/x/**"] ∧
    ["**/x/**"] ≠ ([] : List String) :=
  ⟨rfl, rfl, by decide⟩

/-- C7 (amended): a successful `addIgnorePattern` or
`removeIgnorePattern` clears the compiled-matcher cache before
returning; `ensureDefaults` writing the default list does not clear the
cache — harmless, because the cache is keyed by pattern string and
memoises a pure compilation, so `isIgnored` never consults a stale
matcher whatever the cache contains. -/
theorem claim_C7_amended (p : String) (d : ConfigData) (cache : List String)
    (m : String → String → Bool) (relPath : String) :
    ((addIgnorePattern p d cache).1.changed = true →
      (addIgnorePattern p d cache).2.2 = []) ∧
    ((removeIgnorePattern p d cache).1.changed = true →
      (removeIgnorePattern p d cache).2.2 = []) ∧
    (ensureDefaults d cache).2 = cache ∧
    (isIgnoredSt m (getIgnorePatterns d) relPath cache).1 =
      isIgnored m (getIgnorePatterns d) relPath := by
  obtain ⟨fs, ig⟩ := d
  refine ⟨?_, ?_, ?_, isIgnoredSt_fst m _ relPath cache⟩
  · unfold addIgnorePattern
    by_cases h : ((ConfigData.mk fs ig).ignore.getD []).contains p
    · rw [if_pos h]
      intro hc
      exact absurd hc (by simp)
    · rw [if_neg h]
      intro _
      rfl
  · cases ig with
    | none =>
      intro hc
      exact absurd hc (by simp [removeIgnorePattern])
    | some user =>
      by_cases h : p ∈ user <;> simp [removeIgnorePattern, h]
  · cases ig <;> rfl

theorem claim_C7_amended_witness :
    (addIgnorePattern "**/z/**" (ConfigData.mk [] (some [])) ["c1"]).2.2 =
      [] ∧
    (removeIgnorePattern "**/a/**"
      (ConfigData.mk [] (some ["**/a/**"])) ["c1"]).2.2 = [] ∧
    (ensureDefaults (ConfigData.mk [] (some [])) ["c1"]).2 = ["c1"] ∧
    (isIgnoredSt (fun p s => p == s)
        (getIgnorePatterns (ConfigData.mk [] (some []))) "x" ["c1"]).1 =
      isIgnored (fun p s => p == s)
        (getIgnorePatterns (ConfigData.mk [] (some []))) "x" :=
  ⟨(claim_C7_amended "**/z/**" (ConfigData.mk [] (some [])) ["c1"]
      (fun p s => p == s) "x").1 (by decide),
   (claim_C7_amended "**/a/**" (ConfigData.mk [] (some ["**/a/**"])) ["c1"]
      (fun p s => p == s) "x").2.1 (by decide),
   (claim_C7_amended "**/a/**" (ConfigData.mk [] (some [])) ["c1"]
      (fun p s => p == s) "x").2.2.1,
   (claim_C7_amended "**/a/**" (ConfigData.mk [] (some [])) ["c1"]
      (fun p s => p == s) "x").2.2.2⟩

/-- C8: Linking an invalid root (nonexistent, or not a directory)
returns an error result synchronously, and leaves the persisted folder
list unchanged — no config write occurs on the error path.  (linkFolder
is a total function here: the error is a return value, never fatal.) -/
theorem claim_C8 (fsi : FsInfo) (abs : String) (d : ConfigData)
    (cache : List String)
    (h : fsi.pathExists abs = false ∨ fsi.isDirectory abs = false) :
    (linkFolder fsi abs d cache).res.added = false ∧
    ((linkFolder fsi abs d cache).res.error).isSome = true ∧
    (linkFolder fsi abs d cache).data = d ∧
    (linkFolder fsi abs d cache).writes = [] := by
  unfold linkFolder
  by_cases h1 : fsi.pathExists abs = false
  · rw [if_pos h1]
    exact ⟨rfl, rfl, rfl, rfl⟩
  · have h2 : fsi.isDirectory abs = false := h.resolve_left h1
    rw [if_neg h1, if_pos h2]
    exact ⟨rfl, rfl, rfl, rfl⟩

theorem claim_C8_witness :
    (linkFolder (FsInfo.mk (fun _ => false) (fun _ => true)) "/nope"
        (ConfigData.mk ["/a"] none) ["c"]).res.added = false ∧
    ((linkFolder (FsInfo.mk (fun _ => false) (fun _ => true)) "/nope"
        (ConfigData.mk ["/a"] none) ["c"]).res.error).isSome = true ∧
    (linkFolder (FsInfo.mk (fun _ => false) (fun _ => true)) "/nope"
        (ConfigData.mk ["/a"] none) ["c"]).data =
      ConfigData.mk ["/a"] none ∧
    (linkFolder (FsInfo.mk (fun _ => false) (fun _ => true)) "/nope"
        (ConfigData.mk ["/a"] none) ["c"]).writes = [] :=
  claim_C8 (FsInfo.mk (fun _ => false) (fun _ => true)) "/nope"
    (ConfigData.mk ["/a"] none) ["c"] (Or.inl rfl)

/-- C9: `broadcast` serializes the event exactly once and delivers that
serialization to every connection in the open state (`readyState = 1`);
a non-open connection is skipped without affecting delivery to the rest
and without raising an error (the function is total). -/
theorem claim_C9 {Event : Type} (stringify : Event → String)
    (clients : List Client) (data : Event) :
    (broadcast stringify clients data).serialCalls = 1 ∧
    (∀ c ∈ clients, c.readyState = 1 →
      (c.id, stringify data) ∈ (broadcast stringify clients data).sends) ∧
    (∀ q ∈ (broadcast stringify clients data).sends,
      q.2 = stringify data) ∧
    (broadcast stringify clients data).sends.length =
      clients.countP (fun c => c.readyState == 1) ∧
    (∀ (pre post : List Client) (c : Client), c.readyState ≠ 1 →
      broadcast stringify (pre ++ c :: post) data =
        broadcast stringify (pre ++ post) data) := by
  refine ⟨rfl, ?_, ?_, ?_,
    fun pre post c h => broadcast_skips_closed stringify pre post c data h⟩
  · intro c hc hrs
    exact List.mem_map.2 ⟨c, List.mem_filter.2 ⟨hc, by simp [hrs]⟩, rfl⟩
  · intro q hq
    rcases List.mem_map.1 hq with ⟨c, -, rfl⟩
    rfl
  · unfold broadcast
    rw [List.countP_eq_length_filter, List.length_map]

theorem claim_C9_witness :
    ((1 : Nat), "E") ∈ (broadcast (fun s : String => s)
      [Client.mk 1 1, Client.mk 2 3, Client.mk 3 1] "E").sends ∧
    (broadcast (fun s : String => s)
      [Client.mk 1 1, Client.mk 2 3, Client.mk 3 1] "E").sends.length =
      [Client.mk 1 1, Client.mk 2 3, Client.mk 3 1].countP
        (fun c => c.readyState == 1) ∧
    broadcast (fun s : String => s)
        ([Client.mk 1 1] ++ Client.mk 2 3 :: [Client.mk 3 1]) "E" =
      broadcast (fun s : String => s) ([Client.mk 1 1] ++ [Client.mk 3 1])
        "E" :=
  ⟨(claim_C9 (fun s : String => s)
      [Client.mk 1 1, Client.mk 2 3, Client.mk 3 1] "E").2.1
      (Client.mk 1 1) (by decide) rfl,
   (claim_C9 (fun s : String => s)
      [Client.mk 1 1, Client.mk 2 3, Client.mk 3 1] "E").2.2.2.1,
   (claim_C9 (fun s : String => s)
      [Client.mk 1 1, Client.mk 2 3, Client.mk 3 1] "E").2.2.2.2
      [Client.mk 1 1] [Client.mk 3 1] (Client.mk 2 3) (by decide)⟩

/-- C10: `GET /api/file` reads a file only when the requested folder is
in the current folder set and the resolved path lies within that folder;
a relative path that resolves outside the folder is rejected with a 403
response and no read occurs. -/
theorem claim_C10 (folders : List String) (fsRead : String → Option String)
    (folder rel : String) (hf : folder ≠ "") (hr : rel ≠ "") :
    (∀ p ∈ (fileRoute folders fsRead (some folder) (some rel)).2,
      folder ∈ folders ∧
      isWithin folder (resolveS folder rel) = true ∧
      liesWithin (normSegs folder) (resolveSegs folder rel) ∧
      p = resolveS folder rel) ∧
    (¬ liesWithin (normSegs folder) (resolveSegs folder rel) →
      (∃ msg, (fileRoute folders fsRead (some folder) (some rel)).1 =
        FileResp.forbidden msg) ∧
      (fileRoute folders fsRead (some folder) (some rel)).2 = []) := by
  have hpref : isWithin folder (resolveS folder rel) = true →
      liesWithin (normSegs folder) (resolveSegs folder rel) := fun hw =>
    isWithin_imp_inside folder (resolveSegs folder rel)
      (resolveSegs_good folder rel) hw
  simp only [fileRoute]
  rw [if_neg (not_or.mpr ⟨hf, hr⟩)]
  by_cases hlink : folders.contains folder = true
  · rw [if_neg (not_not_intro hlink)]
    by_cases hw : isWithin folder (resolveS folder rel) = true
    · rw [if_neg (not_not_intro hw)]
      constructor
      · cases hcase : fsRead (resolveS folder rel) with
        | none =>
          intro p hp
          have hps := List.mem_singleton.1 hp
          rw [hps]
          exact ⟨contains_iff.1 hlink, hw, hpref hw, rfl⟩
        | some content =>
          intro p hp
          have hps := List.mem_singleton.1 hp
          rw [hps]
          exact ⟨contains_iff.1 hlink, hw, hpref hw, rfl⟩
      · intro hnl
        exact absurd (hpref hw) hnl
    · rw [if_pos hw]
      refine ⟨fun p hp => absurd hp (List.not_mem_nil p), fun _ => ?_⟩
      exact ⟨⟨"forbidden", rfl⟩, rfl⟩
  · rw [if_pos hlink]
    refine ⟨fun p hp => absurd hp (List.not_mem_nil p), fun _ => ?_⟩
    exact ⟨⟨"folder not linked", rfl⟩, rfl⟩

theorem claim_C10_witness :
    (∃ msg, (fileRoute ["/a"] (fun _ => some "secret") (some "/a")
        (some "../etc/passwd")).1 = FileResp.forbidden msg) ∧
    (fileRoute ["/a"] (fun _ => some "secret") (some "/a")
        (some "../etc/passwd")).2 = [] :=
  (claim_C10 ["/a"] (fun _ => some "secret") "/a" "../etc/passwd"
    (by decide) (by decide)).2
    (by unfold liesWithin; decide)

end PeekMD
